import Mathlib

/-!
Verification of the diff-tree model of this repository (ui/DiffTreeModel.cpp):
a shallow embedding of the tree construction, path computation, tri-state
aggregation, status summary and toggle/notification logic, together with
theorems settling the specification claims about them.

Strings are handled through their character lists so that every operation is
structural and evaluates by kernel reduction.
-/

/-- Character-list core of QString::startsWith: the second list is an initial
segment of the first. -/
def charsStartWith : List Char → List Char → Bool
  | _, [] => true
  | [], _ :: _ => false
  | a :: as, b :: bs => a = b && charsStartWith as bs

/-- QString::startsWith: plain string-prefix test, exactly as used at
DiffTreeModel.cpp:127 and DiffTreeModel.cpp:224. -/
def strStartsWith (s p : String) : Bool :=
  charsStartWith s.data p.data

/-- Character-list worker for QString::split on the slash separator
(Qt keeps empty parts by default). -/
def splitSlashGo : List Char → List Char → List String
  | [], acc => [String.mk acc.reverse]
  | c :: cs, acc =>
    if c = '/' then String.mk acc.reverse :: splitSlashGo cs []
    else splitSlashGo cs (c :: acc)

/-- QString::split on the slash separator, as used in createDiffTree
(DiffTreeModel.cpp:39). -/
def splitSlash (s : String) : List String :=
  splitSlashGo s.data []

/-- Tree node of DiffTreeModel::Node: a name (one path segment; the
repository working directory for the root) and the ordered child list.
The C++ parent pointer is represented implicitly: a node is addressed by
its position (list of child rows) below the root. -/
inductive Node where
  | mk (name : String) (children : List Node)

/-- Node::name. -/
def Node.name : Node → String
  | .mk n _ => n

/-- Node::children (also Node::hasChildren via the length). -/
def Node.children : Node → List Node
  | .mk _ cs => cs

/-- The child-scan loop of Node::addChild (DiffTreeModel.cpp:313-324):
walk the children in order; at the first child whose name equals the
segment, descend into it (recurse) and put the result back in place; if no
child matches, append the newly created subtree (mkNew) at the end. The
descend and create actions are passed in by addChild below. -/
def scanChildren (seg : String) (recurse : Node → Option Node) (mkNew : Option Node) :
    List Node → Option (List Node)
  | [] => mkNew.map (fun n2 => [n2])
  | c :: cs =>
    if c.name = seg then (recurse c).map (fun c2 => c2 :: cs)
    else (scanChildren seg recurse mkNew cs).map (fun cs2 => c :: cs2)

/-- Node::addChild(pathPart, indexFirstDifferent) (DiffTreeModel.cpp:311-325),
with the already-consumed segments dropped: the argument list is the suffix
pathPart[indexFirstDifferent..]. Qt reads pathPart[indexFirstDifferent]
unconditionally (in the child-name comparison and in the Node constructor
argument), so an exhausted segment list is an out-of-range QList access:
that is modelled as none. When a child with the segment name exists, the
scan descends into that child in place; otherwise a new node is created,
filled when further segments remain (the match on the remaining segments),
and appended at the end. -/
def addChild : List String → Node → Option Node
  | [], _ => none
  | seg :: rest, .mk nm cs =>
    (scanChildren seg
      (fun c => addChild rest c)
      (match rest with
       | [] => some (.mk seg [])
       | r :: rs => addChild (r :: rs) (.mk seg []))
      cs).map (fun cs2 => .mk nm cs2)

/-- Per-entry change-set data as exposed by the change-set collaborator:
path (git::Diff::name) and single-character status code
(git::Diff::statusChar applied to the status). -/
structure Entry where
  path : String
  status : Char

/-- The attached change-set (git::Diff) as seen through the interface the
model uses: validity flag (isValid and the boolean conversion), the
status-diff flag (isStatusDiff), and the ordered entries (count/name/status). -/
structure Diff where
  valid : Bool
  statusDiff : Bool
  entries : List Entry

/-- The path-collection loop shared by data(CheckStateRole)
(DiffTreeModel.cpp:125-129) and setData (DiffTreeModel.cpp:222-226):
all change-set entry paths that start (string-wise, QString::startsWith)
with the node's relative path. -/
def matchedPaths (diff : Diff) (pfx : String) : List String :=
  (diff.entries.map Entry.path).filter (fun p => strStartsWith p pfx)

/-- Staged status of one path in the staging index
(git::Index::isStaged), the five-valued enumeration matched at
DiffTreeModel.cpp:138-148. -/
inductive StageState where
  | Disabled
  | Unstaged
  | Conflicted
  | PartiallyStaged
  | Staged
deriving DecidableEq, Repr

/-- The staging index, abstracted to its query result per path. -/
abbrev StIndex := String → StageState

/-- Qt check states relevant to CheckStateRole. -/
inductive CheckState where
  | Unchecked
  | PartiallyChecked
  | Checked
deriving DecidableEq, Repr

/-- The foreach loop of data(CheckStateRole) (DiffTreeModel.cpp:136-150):
scan the matched paths with a running count of Staged entries;
a PartiallyStaged entry returns PartiallyChecked immediately (inl);
otherwise the final count is delivered (inr). -/
def scanStaged (idx : StIndex) : List String → Nat → CheckState ⊕ Nat
  | [], count => .inr count
  | p :: ps, count =>
    match idx p with
    | .Disabled => scanStaged idx ps count
    | .Unstaged => scanStaged idx ps count
    | .Conflicted => scanStaged idx ps count
    | .PartiallyStaged => .inl .PartiallyChecked
    | .Staged => scanStaged idx ps (count + 1)

/-- data(index, CheckStateRole) (DiffTreeModel.cpp:117-159) given the
node's relative path: none models the QVariant() "undetermined" result. -/
def checkState (diff : Diff) (idx : StIndex) (pfx : String) : Option CheckState :=
  if !diff.valid || !diff.statusDiff then none
  else
    let paths := matchedPaths diff pfx
    if paths.isEmpty then none
    else
      match scanStaged idx paths 0 with
      | .inl s => some s
      | .inr count =>
        if count = 0 then some .Unchecked
        else if count = paths.length then some .Checked
        else some .PartiallyChecked

/-- Declarative restatement of the inclusion-state claim, written from the
specification's words: undetermined outside a valid status diff or when no
entry matches; PartiallyChecked as soon as any matched entry is
PartiallyStaged; otherwise Unchecked/Checked/PartiallyChecked by comparing
the number of Staged entries with the number of matches. -/
def checkStateClaim (diff : Diff) (idx : StIndex) (pfx : String) : Option CheckState :=
  if !diff.valid || !diff.statusDiff then none
  else
    let paths := matchedPaths diff pfx
    if paths.isEmpty then none
    else if paths.any (fun p => idx p = .PartiallyStaged) then some .PartiallyChecked
    else
      let staged := paths.countP (fun p => idx p = .Staged)
      if staged = 0 then some .Unchecked
      else if staged = paths.length then some .Checked
      else some .PartiallyChecked

/-- Modelled from the spec: containsPath is declared in the model's header,
which is not part of the sources here; the specification describes the
entry sets it selects as a segment-boundary-safe prefix match (an entry is
the node's own path, or lies strictly below it past a slash separator). -/
def containsPath (path pfx : String) : Bool :=
  path = pfx || strStartsWith path (pfx ++ "/")

/-- Membership of a character in a list, mirroring QString::contains. -/
def hasChar : List Char → Char → Bool
  | [], _ => false
  | c :: cs, d => c = d || hasChar cs d

/-- The entry loop of data(StatusRole) (DiffTreeModel.cpp:189-196):
append the status character of each containsPath-matched entry unless it
already occurs in the accumulated summary. -/
def statusSummaryGo (pfx : String) : List Entry → List Char → List Char
  | [], acc => acc
  | e :: es, acc =>
    if containsPath e.path pfx then
      if hasChar acc e.status then statusSummaryGo pfx es acc
      else statusSummaryGo pfx es (acc ++ [e.status])
    else statusSummaryGo pfx es acc

/-- data(index, StatusRole) (DiffTreeModel.cpp:183-199) given the node's
relative path; the summary string is represented by its character list. -/
def statusSummary (diff : Diff) (pfx : String) : List Char :=
  if !diff.valid then []
  else statusSummaryGo pfx diff.entries []

/-- Specification-side description of a first-seen deduplication: keep each
character's first occurrence, deleting all its later duplicates. -/
def firstSeen : List Char → List Char
  | [] => []
  | c :: cs => c :: firstSeen (cs.filter (fun d => !(d = c)))
termination_by l => l.length
decreasing_by
  simp only [List.length_cons]
  exact Nat.lt_succ_of_le (List.length_filter_le _ _)

/-- Status characters of the containsPath-matched entries, in scan order. -/
def matchedStatusChars (diff : Diff) (pfx : String) : List Char :=
  (diff.entries.filter (fun e => containsPath e.path pfx)).map Entry.status

/-- Node::path(relative) (DiffTreeModel.cpp:290-294), applied to the chain
of names from the node upward to the root (the node's own name first, the
root's name last), exactly mirroring the parent recursion: a node is "root"
for the computation when it has no parent, or when relative is requested
and its parent has no parent. -/
def pathAux : List String → Bool → String
  | [], _ => ""
  | [n], _ => n
  | n :: p :: ps, rel =>
    if rel && ps.isEmpty then n
    else pathAux (p :: ps) rel ++ "/" ++ n

/-- Names along the path from the root to the node at the given position
(root's name first); none when the position leaves the tree. -/
def chainNames (t : Node) : List Nat → Option (List String)
  | [] => some [t.name]
  | i :: is => match t.children[i]? with
    | some c => (chainNames c is).map (fun ns => t.name :: ns)
    | none => none

/-- Path of the node at a position, via Node::path on its ancestor chain. -/
def nodePathAt (root : Node) (pos : List Nat) (rel : Bool) : Option String :=
  (chainNames root pos).map (fun ns => pathAux ns.reverse rel)

/-- Specification-side path join: the segment names separated by slashes. -/
def joinSlash : List String → String
  | [] => ""
  | [n] => n
  | n :: p :: ps => n ++ "/" ++ joinSlash (p :: ps)

/-- Node lookup by position (child rows from the root); the invalid
QModelIndex resolves to the root itself, i.e. the empty position. -/
def nodeAt : Node → List Nat → Option Node
  | t, [] => some t
  | t, i :: is =>
    match t.children[i]? with
    | some c => nodeAt c is
    | none => none

/-- createDiffTree (DiffTreeModel.cpp:34-42): starting from a fresh root
named after the repository working directory, insert every change-set entry
path split on slashes. -/
def createDiffTree (workdir : String) (names : List String) : Option Node :=
  names.foldlM (fun t p => addChild (splitSlash p) t) (.mk workdir [])

/-- Observable state of the model: the attached change-set and the tree
root (none models the null mRoot before any valid diff arrived). -/
structure ModelState where
  diff : Diff
  root : Option Node

/-- Notifications emitted by the model: the begin/end of a model reset,
dataChanged for the node at a position, and the checkStateChanged signal
carrying the requested node and value. -/
inductive Event where
  | beginReset
  | endReset
  | dataChangedEv (pos : List Nat)
  | checkStateChangedEv (pos : List Nat) (value : Bool)
deriving DecidableEq, Repr

/-- setDiff (DiffTreeModel.cpp:44-56): beginResetModel, then only for a
valid diff delete the old tree, store the diff and rebuild the tree from
the working-directory root, then endResetModel. The construction itself
can hit the out-of-range access of addChild, so the result is optional. -/
def setDiff (m : ModelState) (workdir : String) (d : Diff) :
    Option (ModelState × List Event) :=
  if d.valid then
    (createDiffTree workdir (d.entries.map Entry.path)).map
      (fun r => ({ diff := d, root := some r }, [Event.beginReset, Event.endReset]))
  else
    some (m, [Event.beginReset, Event.endReset])

/-- The parent-walk loop of setData (DiffTreeModel.cpp:244-248), phrased on
the reversed position: QAbstractItemModel parent drops the last row, and
the index is valid while the node is strictly below the root, so the loop
emits the positions obtained by repeatedly dropping the last row until the
position would become empty. -/
def parentLoopRev : List Nat → List (List Nat)
  | [] => []
  | [_] => []
  | _ :: p :: rest => (p :: rest).reverse :: parentLoopRev (p :: rest)

/-- Declarative description of the ancestor walk: the proper nonempty
initial segments of the position, longest (the immediate parent) first. -/
def ancestorPositions (pos : List Nat) : List (List Nat) :=
  (List.range (pos.length - 1)).map (fun j => pos.take (pos.length - 1 - j))

/-- setData(index, value, CheckStateRole, ignoreIndexChanges)
(DiffTreeModel.cpp:212-256). The staging mutation is the collaborator
setStaged, modelled from the spec as taking the current index state and
returning the new one on success and none on failure; the C++ code ignores
that outcome, so on failure the index state is simply left unchanged and
execution continues. Children events come from the rowCount loop (rowCount
is 0 when the diff converts to false), ancestor events from the parent
walk, then the node itself and the single checkStateChanged emission; the
call returns true for this role. none models the null-pointer dereference
of running without a root or resolving a dangling index. -/
def setData (m : ModelState) (setStaged : List String → Bool → StIndex → Option StIndex)
    (cur : StIndex) (pos : List Nat) (value : Bool) (ignore : Bool) :
    Option (Bool × List Event × StIndex) :=
  match m.root with
  | none => none
  | some root =>
    match nodeAt root pos, nodePathAt root pos true with
    | some n, some pfx =>
      let files := matchedPaths m.diff pfx
      let cur2 := if ignore then cur else (setStaged files value cur).getD cur
      let childEvents :=
        if m.root.isSome && decide (n.children.length > 0) then
          (List.range (if m.diff.valid then n.children.length else 0)).map
            (fun r => Event.dataChangedEv (pos ++ [r]))
        else []
      let parentEvents := (parentLoopRev pos.reverse).map Event.dataChangedEv
      some (true,
        childEvents ++ parentEvents ++
          [Event.dataChangedEv pos, Event.checkStateChangedEv pos value],
        cur2)
    | _, _ => none

/-- Names of a child list. -/
def namesOf (cs : List Node) : List String := cs.map Node.name

/-- Membership of a name in a list of names. -/
def hasName : List String → String → Bool
  | [], _ => false
  | s :: ss, t => s = t || hasName ss t

/-- No name occurs twice. -/
def namesNodup : List String → Bool
  | [] => true
  | s :: ss => !(hasName ss s) && namesNodup ss

mutual

/-- Sibling-name uniqueness at every node of the tree. -/
def uniqNode : Node → Bool
  | .mk _ cs => namesNodup (namesOf cs) && uniqList cs

/-- Sibling-name uniqueness at every node of every tree in the list. -/
def uniqList : List Node → Bool
  | [] => true
  | c :: cs => uniqNode c && uniqList cs

end

/-! ### Helper lemmas -/

theorem strAppend_assoc (a b c : String) : a ++ b ++ c = a ++ (b ++ c) := by
  apply String.ext
  simp only [String.data_append, List.append_assoc]

theorem scanStaged_eq (idx : StIndex) (ps : List String) (k : Nat) :
    scanStaged idx ps k =
      if ps.any (fun p => idx p = StageState.PartiallyStaged) then
        Sum.inl CheckState.PartiallyChecked
      else Sum.inr (k + ps.countP (fun p => idx p = StageState.Staged)) := by
  induction ps generalizing k with
  | nil => simp [scanStaged]
  | cons p ps ih =>
    cases h : idx p <;>
      (simp [scanStaged, h, ih, List.countP_cons]; try (split <;> (try simp) <;> try omega))

/-! ### Claims -/

/-- Claim C1: the inclusion-state query resolves each startsWith-matched
entry through the staging index and returns PartiallyChecked immediately on
any PartiallyStaged entry, otherwise Unchecked when no matched entry is
Staged, Checked when all are, and PartiallyChecked in between, with
Unstaged, Conflicted and Disabled entries not counted as staged; when no
entry matches the prefix it returns undetermined (none). -/
theorem claim_C1_checkState_matches_claim (diff : Diff) (idx : StIndex) (pfx : String) :
    checkState diff idx pfx = checkStateClaim diff idx pfx := by
  unfold checkState checkStateClaim
  split
  · rfl
  · set paths := matchedPaths diff pfx with hps
    by_cases he : paths.isEmpty
    · simp [he]
    · simp only [he, if_false, scanStaged_eq, Nat.zero_add]
      by_cases ha : paths.any (fun p => idx p = StageState.PartiallyStaged) <;>
        simp [ha]

/-- Claim C2: the prefix matching used by the inclusion-state query and the
toggle is a plain QString::startsWith test, not a segment-boundary-safe
one: the tree built from the entries "ab" and "abc/x" has a leaf node with
relative path "ab", and the selection for that node picks up the foreign
entry "abc/x" as well, which is not equal to the node's path and not below
it past a separator. -/
theorem claim_C2_selection_not_segment_safe :
    createDiffTree "wd" ["ab", "abc/x"] =
      some (.mk "wd" [.mk "ab" [], .mk "abc" [.mk "x" []]]) ∧
    nodePathAt (.mk "wd" [.mk "ab" [], .mk "abc" [.mk "x" []]]) [0] true = some "ab" ∧
    matchedPaths ⟨true, true, [⟨"ab", 'M'⟩, ⟨"abc/x", 'A'⟩]⟩ "ab" = ["ab", "abc/x"] ∧
    containsPath "abc/x" "ab" = false :=
  ⟨rfl, rfl, rfl, rfl⟩

/-- Claim C4: inserting the same path twice is not idempotent: the second
insertion follows the existing chain of children to its end and then reads
the segment list past its last element (an out-of-range QList access),
modelled by the none result, while a single insertion succeeds. -/
theorem claim_C4_duplicate_insert_out_of_range :
    createDiffTree "wd" ["src/a.txt"] =
      some (.mk "wd" [.mk "src" [.mk "a.txt" []]]) ∧
    createDiffTree "wd" ["src/a.txt", "src/a.txt"] = none :=
  ⟨rfl, rfl⟩

/-- Claim C10: attaching an invalid change-set leaves the stored change-set
and the tree untouched while still emitting the reset notifications; only a
valid change-set replaces the stored diff and rebuilds the tree from the
working-directory root. -/
theorem claim_C10_setDiff_frame (m : ModelState) (wd : String) (d : Diff) :
    (d.valid = false → setDiff m wd d = some (m, [Event.beginReset, Event.endReset])) ∧
    (d.valid = true →
      setDiff m wd d = (createDiffTree wd (d.entries.map Entry.path)).map
        (fun r => ({ diff := d, root := some r }, [Event.beginReset, Event.endReset]))) := by
  constructor <;> intro h <;> simp [setDiff, h]

/-- Witness for C10 at a concrete state and an invalid incoming diff. -/
theorem claim_C10_setDiff_frame_witness :
    setDiff ⟨⟨true, true, [⟨"a", 'M'⟩]⟩, some (.mk "wd" [.mk "a" []])⟩ "wd2" ⟨false, true, []⟩ =
      some (⟨⟨true, true, [⟨"a", 'M'⟩]⟩, some (.mk "wd" [.mk "a" []])⟩,
        [Event.beginReset, Event.endReset]) :=
  (claim_C10_setDiff_frame _ _ _).1 rfl

theorem hasChar_append (acc : List Char) (c d : Char) :
    hasChar (acc ++ [c]) d = (hasChar acc d || c = d) := by
  induction acc with
  | nil => simp [hasChar]
  | cons a acc ih => simp [hasChar, ih, Bool.or_assoc]

theorem firstSeen_nil : firstSeen [] = [] := by
  rw [firstSeen.eq_def]

theorem firstSeen_cons (c : Char) (l : List Char) :
    firstSeen (c :: l) = c :: firstSeen (l.filter (fun d => !(d = c))) := by
  rw [firstSeen.eq_def]

theorem filter_not_hasChar_append (l acc : List Char) (c : Char) :
    (l.filter (fun d => !hasChar acc d)).filter (fun d => !(d = c)) =
      l.filter (fun d => !hasChar (acc ++ [c]) d) := by
  induction l with
  | nil => rfl
  | cons a l ih =>
    cases h1 : hasChar acc a with
    | true => simp [List.filter_cons, h1, hasChar_append, ih]
    | false =>
      by_cases h2 : a = c
      · subst h2
        simp [List.filter_cons, h1, hasChar_append, ih]
      · simp [List.filter_cons, h1, hasChar_append, ih, h2, Ne.symm h2]

theorem statusSummaryGo_eq (pfx : String) (es : List Entry) (acc : List Char) :
    statusSummaryGo pfx es acc =
      acc ++ firstSeen
        (((es.filter (fun e => containsPath e.path pfx)).map Entry.status).filter
          (fun c => !hasChar acc c)) := by
  induction es generalizing acc with
  | nil => simp [statusSummaryGo, firstSeen_nil]
  | cons e es ih =>
    cases hm : containsPath e.path pfx with
    | false => simp [statusSummaryGo, hm, ih]
    | true =>
      cases hh : hasChar acc e.status with
      | true => simp [statusSummaryGo, hm, hh, ih]
      | false =>
        rw [statusSummaryGo, hm, if_pos rfl, hh]
        simp only [List.filter_cons, hm, if_pos rfl, List.map_cons, hh, Bool.not_false,
          if_true]
        rw [firstSeen_cons, filter_not_hasChar_append]
        rw [ih (acc ++ [e.status])]
        simp

/-- Claim C9: the status-summary query returns the status characters of the
change-set entries under the node's prefix, keeping each character's first
occurrence in scan order and suppressing later duplicates, and returns the
empty string when the change-set is invalid; being a plain function of the
diff and the prefix, it modifies nothing. -/
theorem claim_C9_statusSummary_firstSeen (diff : Diff) (pfx : String) :
    statusSummary diff pfx =
      if diff.valid then firstSeen (matchedStatusChars diff pfx) else [] := by
  unfold statusSummary matchedStatusChars
  cases hv : diff.valid with
  | false => simp
  | true =>
    simp only [Bool.not_true, Bool.false_or, if_false, if_true, Bool.not_false]
    rw [statusSummaryGo_eq]
    simp [hasChar]

/-! ### Path computation (C8) -/

theorem joinSlash_append_singleton (l : List String) (n : String) (h : l ≠ []) :
    joinSlash (l ++ [n]) = joinSlash l ++ "/" ++ n := by
  induction l with
  | nil => exact absurd rfl h
  | cons a l ih =>
    cases l with
    | nil => rfl
    | cons b m =>
      show joinSlash (a :: b :: (m ++ [n])) = _
      have ih2 : joinSlash (b :: (m ++ [n])) = joinSlash (b :: m) ++ "/" ++ n :=
        ih (List.cons_ne_nil b m)
      rw [joinSlash, ih2, joinSlash]
      simp [strAppend_assoc]

theorem pathAux_false_eq (chain : List String) (h : chain ≠ []) :
    pathAux chain false = joinSlash chain.reverse := by
  induction chain with
  | nil => exact absurd rfl h
  | cons n l ih =>
    cases l with
    | nil => rfl
    | cons p ps =>
      rw [pathAux, if_neg (by simp), List.reverse_cons,
        joinSlash_append_singleton _ _ (by simp), ih (List.cons_ne_nil p ps)]

theorem pathAux_true_eq (chain : List String) (r : String) (h : chain ≠ []) :
    pathAux (chain ++ [r]) true = joinSlash chain.reverse := by
  induction chain with
  | nil => exact absurd rfl h
  | cons n l ih =>
    cases l with
    | nil => rfl
    | cons p ps =>
      show pathAux (n :: p :: (ps ++ [r])) true = _
      have ih2 : pathAux (p :: (ps ++ [r])) true = joinSlash (p :: ps).reverse :=
        ih (List.cons_ne_nil p ps)
      rw [pathAux, if_neg (by simp), List.reverse_cons,
        joinSlash_append_singleton _ _ (by simp), ih2]

theorem chainNames_length (t : Node) (pos : List Nat) (names : List String)
    (h : chainNames t pos = some names) :
    names.length = pos.length + 1 ∧ names.head? = some t.name := by
  induction pos generalizing t names with
  | nil =>
    rw [chainNames] at h
    cases h
    exact ⟨rfl, rfl⟩
  | cons i is ih =>
    rw [chainNames] at h
    cases hc : t.children[i]? with
    | none => simp [hc] at h
    | some c =>
      cases hcn : chainNames c is with
      | none => simp [hc, hcn] at h
      | some ns =>
        simp only [hc, hcn, Option.map_some', Option.some_inj] at h
        subst h
        have hns := ih c ns hcn
        simp [hns.1]

/-- Claim C8 (amended): a node's full path joins the names from the root
down to the node with slash separators, and the relative variant omits the
topmost root segment for every node strictly below the root; the root's
full path is its own name (the repository working-directory path), but the
root's relative path is that same name as well, not the empty string. -/
theorem claim_C8_path_join (root : Node) (pos : List Nat) (names : List String)
    (h : chainNames root pos = some names) :
    nodePathAt root pos false = some (joinSlash names) ∧
    (pos ≠ [] → nodePathAt root pos true = some (joinSlash names.tail)) ∧
    nodePathAt root [] false = some root.name ∧
    nodePathAt root [] true = some root.name := by
  obtain ⟨hlen, hhead⟩ := chainNames_length root pos names h
  refine ⟨?_, ?_, rfl, rfl⟩
  · unfold nodePathAt
    rw [h, Option.map_some']
    rw [pathAux_false_eq _ (by simp; intro hcon; rw [hcon] at hlen; cases hlen),
      List.reverse_reverse]
  · intro hpos
    unfold nodePathAt
    rw [h, Option.map_some']
    cases names with
    | nil => cases hlen
    | cons n0 tl =>
      have htl : tl ≠ [] := by
        cases pos with
        | nil => exact absurd rfl hpos
        | cons a as =>
          intro hcon
          rw [hcon] at hlen
          simp at hlen
      rw [List.reverse_cons, pathAux_true_eq _ _ (by simpa using htl),
        List.reverse_reverse]
      simp

/-- Claim C8 counterexample: queried on the root itself, the relative path
variant returns the root's own name (the repository working-directory
path), not the empty string the claim requires. -/
theorem claim_C8_counterexample :
    nodePathAt (.mk "/repo" [.mk "a" []]) [] true = some "/repo" ∧
    ("/repo" : String) ≠ "" :=
  ⟨rfl, by decide⟩

/-- Witness for C8 on a concrete two-level tree. -/
theorem claim_C8_path_join_witness :
    chainNames (.mk "wd" [.mk "src" [.mk "a.txt" []]]) [0, 0] =
      some ["wd", "src", "a.txt"] ∧
    nodePathAt (.mk "wd" [.mk "src" [.mk "a.txt" []]]) [0, 0] false =
      some "wd/src/a.txt" ∧
    nodePathAt (.mk "wd" [.mk "src" [.mk "a.txt" []]]) [0, 0] true =
      some "src/a.txt" := by
  refine ⟨rfl, ?_, ?_⟩
  · rw [(claim_C8_path_join (.mk "wd" [.mk "src" [.mk "a.txt" []]]) [0, 0]
      ["wd", "src", "a.txt"] rfl).1]
    rfl
  · rw [(claim_C8_path_join (.mk "wd" [.mk "src" [.mk "a.txt" []]]) [0, 0]
      ["wd", "src", "a.txt"] rfl).2.1 (by decide)]
    rfl

/-! ### Sibling-name uniqueness (C7) -/

theorem decideEqSymm (a b : String) : (decide (a = b)) = (decide (b = a)) := by
  by_cases h : a = b
  · simp [h]
  · simp [h, Ne.symm h]

theorem namesOf_append (xs ys : List Node) :
    namesOf (xs ++ ys) = namesOf xs ++ namesOf ys := by
  simp [namesOf]

theorem uniqList_append (xs ys : List Node) :
    uniqList (xs ++ ys) = (uniqList xs && uniqList ys) := by
  induction xs with
  | nil => simp [uniqList]
  | cons a l ih => simp [uniqList, ih, Bool.and_assoc]

theorem hasName_append_singleton (xs : List String) (s t : String) :
    hasName (xs ++ [s]) t = (hasName xs t || s = t) := by
  induction xs with
  | nil => simp [hasName]
  | cons a l ih => simp [hasName, ih, Bool.or_assoc]

theorem namesNodup_append_singleton (xs : List String) (s : String) :
    namesNodup (xs ++ [s]) = (namesNodup xs && !hasName xs s) := by
  induction xs with
  | nil => simp [namesNodup, hasName]
  | cons a l ih =>
    show namesNodup (a :: (l ++ [s])) = _
    rw [namesNodup, ih, hasName_append_singleton]
    rw [show namesNodup (a :: l) = (!hasName l a && namesNodup l) from rfl]
    rw [show hasName (a :: l) s = (decide (a = s) || hasName l s) from rfl]
    cases hasName l a <;> cases namesNodup l <;> cases hasName l s <;>
      simp [decideEqSymm a s]

theorem addChild_cons (seg : String) (rest : List String) (nm : String) (cs : List Node) :
    addChild (seg :: rest) (.mk nm cs) =
      (scanChildren seg
        (fun c => addChild rest c)
        (match rest with
         | [] => some (.mk seg [])
         | r :: rs => addChild (r :: rs) (.mk seg []))
        cs).map (fun cs2 => .mk nm cs2) := by
  rw [addChild.eq_def]

theorem addChild_name (segs : List String) (t t2 : Node)
    (h : addChild segs t = some t2) : t2.name = t.name := by
  cases segs with
  | nil => cases h
  | cons seg rest =>
    obtain ⟨nm, cs⟩ := t
    rw [addChild_cons, Option.map_eq_some'] at h
    obtain ⟨cs2, hsc, ht⟩ := h
    subst ht
    rfl

theorem scanChildren_names (seg : String) (recurse : Node → Option Node)
    (mkNew : Option Node) (cs cs2 : List Node)
    (hrn : ∀ c c2, recurse c = some c2 → c2.name = c.name)
    (hnn : ∀ n2, mkNew = some n2 → n2.name = seg)
    (h : scanChildren seg recurse mkNew cs = some cs2) :
    namesOf cs2 = namesOf cs ∨
      (hasName (namesOf cs) seg = false ∧ namesOf cs2 = namesOf cs ++ [seg]) := by
  induction cs generalizing cs2 with
  | nil =>
    rw [scanChildren, Option.map_eq_some'] at h
    obtain ⟨n2, hm, hcs2⟩ := h
    subst hcs2
    right
    exact ⟨rfl, by simp [namesOf, hnn n2 hm]⟩
  | cons c cs ih =>
    rw [scanChildren] at h
    by_cases hc : c.name = seg
    · rw [if_pos hc, Option.map_eq_some'] at h
      obtain ⟨c2, hr, hcs2⟩ := h
      subst hcs2
      left
      simp [namesOf, hrn c c2 hr]
    · rw [if_neg hc, Option.map_eq_some'] at h
      obtain ⟨cs2x, hs, hcs2⟩ := h
      subst hcs2
      cases ih cs2x hs with
      | inl he =>
        left
        simp only [namesOf, List.map_cons] at he ⊢
        rw [he]
      | inr he =>
        right
        constructor
        · show hasName (c.name :: namesOf cs) seg = false
          simp [hasName, hc, he.1]
        · simp only [namesOf, List.map_cons] at he ⊢
          rw [he.2]
          rfl

theorem scanChildren_uniq (seg : String) (recurse : Node → Option Node)
    (mkNew : Option Node) (cs cs2 : List Node)
    (hru : ∀ c c2, recurse c = some c2 → uniqNode c = true → uniqNode c2 = true)
    (hnu : ∀ n2, mkNew = some n2 → uniqNode n2 = true)
    (h : scanChildren seg recurse mkNew cs = some cs2)
    (hu : uniqList cs = true) :
    uniqList cs2 = true := by
  induction cs generalizing cs2 with
  | nil =>
    rw [scanChildren, Option.map_eq_some'] at h
    obtain ⟨n2, hm, hcs2⟩ := h
    subst hcs2
    simp [uniqList, hnu n2 hm]
  | cons c cs ih =>
    rw [scanChildren] at h
    rw [uniqList, Bool.and_eq_true] at hu
    by_cases hc : c.name = seg
    · rw [if_pos hc, Option.map_eq_some'] at h
      obtain ⟨c2, hr, hcs2⟩ := h
      subst hcs2
      rw [uniqList, Bool.and_eq_true]
      exact ⟨hru c c2 hr hu.1, hu.2⟩
    · rw [if_neg hc, Option.map_eq_some'] at h
      obtain ⟨cs2x, hs, hcs2⟩ := h
      subst hcs2
      rw [uniqList, Bool.and_eq_true]
      exact ⟨hu.1, ih cs2x hs hu.2⟩

/-- Claim C7: sibling-name uniqueness is an invariant preserved by every
insertion step: whenever a node's subtree has pairwise-distinct child names
everywhere and an addChild call succeeds, the resulting subtree again has
pairwise-distinct child names everywhere (a matching child is reused in
place and a new child is appended only when its name is absent). -/
theorem claim_C7_addChild_preserves_uniqueness (segs : List String) (t t2 : Node)
    (hu : uniqNode t = true) (h : addChild segs t = some t2) :
    uniqNode t2 = true := by
  induction segs generalizing t t2 with
  | nil => cases h
  | cons seg rest ih =>
    obtain ⟨nm, cs⟩ := t
    rw [addChild_cons, Option.map_eq_some'] at h
    obtain ⟨cs2, hsc, ht⟩ := h
    subst ht
    rw [uniqNode, Bool.and_eq_true] at hu
    rw [uniqNode, Bool.and_eq_true]
    have hrn : ∀ c c2, addChild rest c = some c2 → c2.name = c.name :=
      fun c c2 hh => addChild_name rest c c2 hh
    have hnn : ∀ n2, (match rest with
        | [] => some (Node.mk seg [])
        | r :: rs => addChild (r :: rs) (Node.mk seg [])) = some n2 → n2.name = seg := by
      intro n2 hm
      cases rest with
      | nil => cases hm; rfl
      | cons r rs => exact addChild_name (r :: rs) _ n2 hm
    have hru : ∀ c c2, addChild rest c = some c2 → uniqNode c = true → uniqNode c2 = true :=
      fun c c2 hh huc => ih c c2 huc hh
    have hnu : ∀ n2, (match rest with
        | [] => some (Node.mk seg [])
        | r :: rs => addChild (r :: rs) (Node.mk seg [])) = some n2 →
        uniqNode n2 = true := by
      intro n2 hm
      cases rest with
      | nil => cases hm; rfl
      | cons r rs => exact ih (Node.mk seg []) n2 rfl hm
    refine ⟨?_, scanChildren_uniq seg _ _ cs cs2 hru hnu hsc hu.2⟩
    cases scanChildren_names seg _ _ cs cs2 hrn hnn hsc with
    | inl he => rw [he]; exact hu.1
    | inr he =>
      rw [he.2, namesNodup_append_singleton, hu.1, he.1]
      rfl

/-- Witness for C7: inserting a fresh path into a small unique tree. -/
theorem claim_C7_witness :
    uniqNode (.mk "wd" [.mk "a" []]) = true ∧
    addChild ["b"] (.mk "wd" [.mk "a" []]) = some (.mk "wd" [.mk "a" [], .mk "b" []]) ∧
    uniqNode (.mk "wd" [.mk "a" [], .mk "b" []]) = true :=
  ⟨rfl, rfl, claim_C7_addChild_preserves_uniqueness ["b"] (.mk "wd" [.mk "a" []])
    (.mk "wd" [.mk "a" [], .mk "b" []]) rfl rfl⟩

/-! ### Toggle and notifications (C3, C5, C6) -/

theorem ancestorPositions_append (xs : List Nat) (x : Nat) (h : xs ≠ []) :
    ancestorPositions (xs ++ [x]) = xs :: ancestorPositions xs := by
  obtain ⟨L, hL⟩ : ∃ L, xs.length = L + 1 := by
    cases hx : xs with
    | nil => exact absurd hx h
    | cons a as => exact ⟨as.length, by simp⟩
  unfold ancestorPositions
  have h1 : (xs ++ [x]).length - 1 = L + 1 := by simp [hL]
  rw [h1, hL, Nat.add_sub_cancel, List.range_succ_eq_map, List.map_cons, List.map_map]
  congr 1
  · simp only [Nat.sub_zero]
    have h2 : L + 1 ≤ xs.length := by omega
    rw [List.take_append_of_le_length h2, ← hL, List.take_length]
  · apply List.map_congr_left
    intro j hj
    simp only [Function.comp_apply]
    have h3 : L + 1 - (j + 1) = L - j := by omega
    have h4 : L - j ≤ xs.length := by omega
    rw [h3, List.take_append_of_le_length h4]

theorem parentLoopRev_reverse (pos : List Nat) :
    parentLoopRev pos.reverse = ancestorPositions pos := by
  induction pos using List.reverseRecOn with
  | nil => rfl
  | append_singleton xs x ih =>
    have hrev : (xs ++ [x]).reverse = x :: xs.reverse := by simp
    rw [hrev]
    cases hxs : xs.reverse with
    | nil =>
      have hx0 : xs = [] := by simpa using hxs
      subst hx0
      rfl
    | cons b bs =>
      have hne : xs ≠ [] := by
        intro hcon
        rw [hcon] at hxs
        cases hxs
      have hxs2 : xs = (b :: bs).reverse := by rw [← hxs, List.reverse_reverse]
      rw [parentLoopRev, ancestorPositions_append xs x hne, ← hxs2, ← hxs, ih]

theorem setData_eq (m : ModelState) (s : List String → Bool → StIndex → Option StIndex)
    (cur : StIndex) (pos : List Nat) (value : Bool) (ignore : Bool)
    (root n : Node) (pfx : String)
    (hr : m.root = some root) (hn : nodeAt root pos = some n)
    (hp : nodePathAt root pos true = some pfx) :
    setData m s cur pos value ignore =
      some (true,
        (List.range (if m.diff.valid then n.children.length else 0)).map
          (fun r => Event.dataChangedEv (pos ++ [r])) ++
        (ancestorPositions pos).map Event.dataChangedEv ++
          [Event.dataChangedEv pos, Event.checkStateChangedEv pos value],
        if ignore then cur else (s (matchedPaths m.diff pfx) value cur).getD cur) := by
  simp only [setData, hr, hn, hp, parentLoopRev_reverse, Option.isSome_some, Bool.true_and]
  by_cases hlen : 0 < n.children.length
  · simp [hlen]
  · have h0 : n.children.length = 0 := by omega
    simp [hlen, h0]

/-- Claim C6: for every successful toggle, state-changed notifications go
out for the node's direct children in row order (one level only), then for
every strict ancestor walking upward while the model index stays valid
(which excludes the invisible root), then for the node itself, followed by
exactly one checkStateChanged event carrying the requested node and value;
the staging index becomes the setStaged result. -/
theorem claim_C6_notification_order (m : ModelState)
    (s : List String → Bool → StIndex → Option StIndex) (cur idx2 : StIndex)
    (pos : List Nat) (value : Bool) (root n : Node) (pfx : String)
    (hv : m.diff.valid = true)
    (hr : m.root = some root) (hn : nodeAt root pos = some n)
    (hp : nodePathAt root pos true = some pfx)
    (hs : s (matchedPaths m.diff pfx) value cur = some idx2) :
    setData m s cur pos value false =
      some (true,
        (List.range n.children.length).map (fun r => Event.dataChangedEv (pos ++ [r])) ++
        (ancestorPositions pos).map Event.dataChangedEv ++
          [Event.dataChangedEv pos, Event.checkStateChangedEv pos value],
        idx2) := by
  rw [setData_eq m s cur pos value false root n pfx hr hn hp, hs]
  simp [hv]

/-- Witness for C6 on a two-level tree: toggling the folder node notifies
its two children in row order, then the folder itself, then emits the one
checkStateChanged event. -/
theorem claim_C6_witness :
    nodeAt (.mk "wd" [.mk "src" [.mk "a.txt" [], .mk "b.txt" []]]) [0] =
      some (.mk "src" [.mk "a.txt" [], .mk "b.txt" []]) ∧
    setData ⟨⟨true, true, [⟨"src/a.txt", 'M'⟩, ⟨"src/b.txt", 'M'⟩]⟩,
        some (.mk "wd" [.mk "src" [.mk "a.txt" [], .mk "b.txt" []]])⟩
      (fun _ _ c => some c) (fun _ => StageState.Unstaged) [0] true false =
      some (true, [Event.dataChangedEv [0, 0], Event.dataChangedEv [0, 1],
        Event.dataChangedEv [0], Event.checkStateChangedEv [0] true],
        fun _ => StageState.Unstaged) := by
  have h := claim_C6_notification_order
    ⟨⟨true, true, [⟨"src/a.txt", 'M'⟩, ⟨"src/b.txt", 'M'⟩]⟩,
      some (.mk "wd" [.mk "src" [.mk "a.txt" [], .mk "b.txt" []]])⟩
    (fun _ _ c => some c) (fun _ => StageState.Unstaged) (fun _ => StageState.Unstaged)
    [0] true (.mk "wd" [.mk "src" [.mk "a.txt" [], .mk "b.txt" []]])
    (.mk "src" [.mk "a.txt" [], .mk "b.txt" []]) "src" rfl rfl rfl rfl rfl
  exact ⟨rfl, by rw [h]; rfl⟩

/-- Claim C3 counterexample: with a staging bridge that fails, the toggle
still reports success (true) and still emits the dataChanged and
checkStateChanged notifications, contradicting the claimed report-failure,
no-notification behaviour. -/
theorem claim_C3_counterexample :
    (setData ⟨⟨true, true, [⟨"a", 'M'⟩]⟩, some (.mk "wd" [.mk "a" []])⟩
        (fun _ _ _ => none) (fun _ => StageState.Unstaged) [0] true false).map
      (fun r => (r.1, r.2.1)) =
      some (true, [Event.dataChangedEv [0], Event.checkStateChangedEv [0] true]) := by
  rfl

/-- Claim C3 (amended): when the staging mutation fails the toggle ignores
the failure: it behaves exactly like the propagation-only mode, leaving the
staging index unchanged, yet still emits the full notification set and
still returns true; no failure is reported and no notification is
suppressed. -/
theorem claim_C3_failure_still_notifies (m : ModelState)
    (s : List String → Bool → StIndex → Option StIndex) (cur : StIndex)
    (pos : List Nat) (value : Bool) (root n : Node) (pfx : String)
    (hr : m.root = some root) (hn : nodeAt root pos = some n)
    (hp : nodePathAt root pos true = some pfx)
    (hfail : s (matchedPaths m.diff pfx) value cur = none) :
    setData m s cur pos value false = setData m s cur pos value true ∧
    setData m s cur pos value false =
      some (true,
        (List.range (if m.diff.valid then n.children.length else 0)).map
          (fun r => Event.dataChangedEv (pos ++ [r])) ++
        (ancestorPositions pos).map Event.dataChangedEv ++
          [Event.dataChangedEv pos, Event.checkStateChangedEv pos value],
        cur) := by
  constructor
  · rw [setData_eq m s cur pos value false root n pfx hr hn hp,
      setData_eq m s cur pos value true root n pfx hr hn hp, hfail]
    simp
  · rw [setData_eq m s cur pos value false root n pfx hr hn hp, hfail]
    simp

/-- Witness for C3: a failing bridge on a concrete two-level tree. -/
theorem claim_C3_witness :
    ((fun _ _ _ => none) : List String → Bool → StIndex → Option StIndex)
        (matchedPaths ⟨true, true, [⟨"src/a.txt", 'M'⟩]⟩ "src/a.txt") true
        (fun _ => StageState.Unstaged) = none ∧
    setData ⟨⟨true, true, [⟨"src/a.txt", 'M'⟩]⟩, some (.mk "wd" [.mk "src" [.mk "a.txt" []]])⟩
        (fun _ _ _ => none) (fun _ => StageState.Unstaged) [0, 0] true false =
      setData ⟨⟨true, true, [⟨"src/a.txt", 'M'⟩]⟩, some (.mk "wd" [.mk "src" [.mk "a.txt" []]])⟩
        (fun _ _ _ => none) (fun _ => StageState.Unstaged) [0, 0] true true :=
  ⟨rfl, (claim_C3_failure_still_notifies
    ⟨⟨true, true, [⟨"src/a.txt", 'M'⟩]⟩, some (.mk "wd" [.mk "src" [.mk "a.txt" []]])⟩
    (fun _ _ _ => none) (fun _ => StageState.Unstaged) [0, 0] true
    (.mk "wd" [.mk "src" [.mk "a.txt" []]]) (.mk "a.txt" []) "src/a.txt"
    rfl rfl rfl rfl).1⟩

/-- Claim C5 counterexample: with a valid change-set that is not a status
diff (a kind without staging semantics), the inclusion query does return
undetermined, but the toggle is not refused: it performs the staging
mutation (the path becomes Staged in the returned index), emits
notifications, and reports success. -/
theorem claim_C5_counterexample :
    checkState ⟨true, false, [⟨"a", 'M'⟩]⟩ (fun _ => StageState.Unstaged) "a" = none ∧
    (setData ⟨⟨true, false, [⟨"a", 'M'⟩]⟩, some (.mk "wd" [.mk "a" []])⟩
        (fun fs _ c => some (fun p => if hasName fs p then StageState.Staged else c p))
        (fun _ => StageState.Unstaged) [0] true false).map (fun r => (r.1, r.2.1)) =
      some (true, [Event.dataChangedEv [0], Event.checkStateChangedEv [0] true]) ∧
    (setData ⟨⟨true, false, [⟨"a", 'M'⟩]⟩, some (.mk "wd" [.mk "a" []])⟩
        (fun fs _ c => some (fun p => if hasName fs p then StageState.Staged else c p))
        (fun _ => StageState.Unstaged) [0] true false).map (fun r => r.2.2 "a") =
      some StageState.Staged :=
  ⟨rfl, rfl, rfl⟩

/-- Claim C5 (amended): when the change-set is absent, invalid, or not a
status diff, every inclusion-state query returns undetermined, but the
toggle operation performs no such check: it still runs the staging
mutation, emits the notification set (only the child notifications are
suppressed when the diff is invalid, because rowCount is then 0), and
reports success. -/
theorem claim_C5_query_undetermined_toggle_proceeds (m : ModelState)
    (s : List String → Bool → StIndex → Option StIndex) (cur idxq : StIndex)
    (pos : List Nat) (value : Bool) (root n : Node) (pfx : String)
    (hcond : (!m.diff.valid || !m.diff.statusDiff) = true)
    (hr : m.root = some root) (hn : nodeAt root pos = some n)
    (hp : nodePathAt root pos true = some pfx) :
    checkState m.diff idxq pfx = none ∧
    setData m s cur pos value false =
      some (true,
        (List.range (if m.diff.valid then n.children.length else 0)).map
          (fun r => Event.dataChangedEv (pos ++ [r])) ++
        (ancestorPositions pos).map Event.dataChangedEv ++
          [Event.dataChangedEv pos, Event.checkStateChangedEv pos value],
        (s (matchedPaths m.diff pfx) value cur).getD cur) := by
  constructor
  · rw [checkState, if_pos hcond]
  · rw [setData_eq m s cur pos value false root n pfx hr hn hp]
    simp

/-- Witness for C5: a valid non-status diff on a concrete two-level tree;
the query is undetermined while the toggle notifies the ancestor and the
node and reports success. -/
theorem claim_C5_witness :
    (!(true : Bool) || !(false : Bool)) = true ∧
    checkState ⟨true, false, [⟨"src/a.txt", 'M'⟩]⟩ (fun _ => StageState.Unstaged)
      "src/a.txt" = none ∧
    setData ⟨⟨true, false, [⟨"src/a.txt", 'M'⟩]⟩,
        some (.mk "wd" [.mk "src" [.mk "a.txt" []]])⟩
      (fun _ _ c => some c) (fun _ => StageState.Unstaged) [0, 0] true false =
      some (true, [Event.dataChangedEv [0], Event.dataChangedEv [0, 0],
        Event.checkStateChangedEv [0, 0] true], fun _ => StageState.Unstaged) := by
  have h := claim_C5_query_undetermined_toggle_proceeds
    ⟨⟨true, false, [⟨"src/a.txt", 'M'⟩]⟩, some (.mk "wd" [.mk "src" [.mk "a.txt" []]])⟩
    (fun _ _ c => some c) (fun _ => StageState.Unstaged) (fun _ => StageState.Unstaged)
    [0, 0] true (.mk "wd" [.mk "src" [.mk "a.txt" []]]) (.mk "a.txt" []) "src/a.txt"
    rfl rfl rfl rfl
  exact ⟨rfl, h.1, by rw [h.2]; rfl⟩
